import Mathlib

/-!
Verification of `boost/math/optimization/differential_evolution.hpp`.

Shallow embedding conventions:
* Candidate coordinates are rationals (`ℚ`).  Cost values, the mutation factor
  and the crossover probability — which in the source are IEEE floating-point
  numbers whose NaN/infinity behaviour matters to the algorithm — are embedded
  as `RVal` (NaN, -inf, +inf, or a finite rational) with IEEE comparison
  semantics.
* The caller's URBG is embedded as two oracle streams sharing one position
  counter: `natS` gives the raw `gen()` outputs and `unifS` the outputs of
  `unif01(gen)`.  Every draw of either kind advances the shared counter by
  one, mirroring the single sequentially-consumed generator of the source.
* The rejection-sampling index draws are fueled (`Option`-valued); exhausting
  fuel yields `none` for the whole run.
* `detail::random_initial_population`, `detail::validate_bounds` and
  `detail::validate_initial_guess` live in `detail/common.hpp`, which is not
  part of the source tree; the initial population is taken as an oracle
  argument and the two validators are modelled from the spec (marked below).
* The two parallel evaluation phases write disjoint slots; the embedding runs
  them sequentially in slot order (the threads = 1 schedule).  The external
  cancellation flag is a constant `Bool` (its mid-run flips are a concurrency
  phenomenon outside this embedding).
* `evalCount` is instrumentation counting invocations of the cost function;
  `queries` models the optional diagnostics log in the supplied-log case.
-/

namespace DE

/-- An IEEE-style scalar: NaN, -infinity, +infinity, or a finite rational. -/
inductive RVal where
  | nan  : RVal
  | ninf : RVal
  | pinf : RVal
  | val  : ℚ → RVal
deriving DecidableEq, Repr

/-- IEEE strict less-than: any comparison with NaN is false. -/
def rlt : RVal → RVal → Bool
  | .nan, _ => false
  | _, .nan => false
  | .ninf, .ninf => false
  | .ninf, .pinf => true
  | .ninf, .val _ => true
  | .pinf, _ => false
  | .val _, .ninf => false
  | .val _, .pinf => true
  | .val a, .val b => decide (a < b)

/-- IEEE less-or-equal: any comparison with NaN is false. -/
def rle : RVal → RVal → Bool
  | .nan, _ => false
  | _, .nan => false
  | .ninf, _ => true
  | .pinf, .pinf => true
  | .pinf, _ => false
  | .val _, .ninf => false
  | .val _, .pinf => true
  | .val a, .val b => decide (a ≤ b)

/-- `std::isnan`. -/
def risnan : RVal → Bool
  | .nan => true
  | _ => false

/-- `std::isfinite`. -/
def risfinite : RVal → Bool
  | .val _ => true
  | _ => false

/-- The rational carried by a finite `RVal` (defaults to 0; the optimizer only
applies it to the mutation factor after validation has forced finiteness). -/
def RVal.toRat : RVal → ℚ
  | .val q => q
  | _ => 0

/-- `differential_evolution_parameters` (the `threads` default in the source is
`std::thread::hardware_concurrency()`; defaults are irrelevant to the claims). -/
structure DEParams where
  lower_bounds : List ℚ
  upper_bounds : List ℚ
  mutation_factor : RVal := RVal.val (65/100)
  crossover_probability : RVal := RVal.val (1/2)
  NP : Nat := 500
  max_generations : Nat := 1000
  initial_guess : Option (List ℚ) := none
  threads : Nat := 1
deriving DecidableEq, Repr

/-- Modelled from the spec: `detail::validate_bounds` (in `detail/common.hpp`,
not part of the source tree).  The spec rejects "malformed bounds (lower ≥
upper on some dimension, or mismatched lengths)". -/
def validate_bounds (lower upper : List ℚ) : Bool :=
  lower.length == upper.length &&
    (List.range lower.length).all fun j => decide (lower.getD j 0 < upper.getD j 0)

/-- Modelled from the spec: `detail::validate_initial_guess` (in
`detail/common.hpp`, not part of the source tree).  The spec rejects "an
initial guess whose dimension or bound-containment is violated". -/
def validate_initial_guess (guess lower upper : List ℚ) : Bool :=
  guess.length == lower.length &&
    (List.range lower.length).all fun j =>
      decide (lower.getD j 0 ≤ guess.getD j 0) && decide (guess.getD j 0 ≤ upper.getD j 0)

/-- `validate_differential_evolution_parameters`: the checks, in source order.
The mutation-factor test is the source's `isnan(F) || F >= 1 || F <= 0` under
IEEE comparison semantics. -/
def validate_differential_evolution_parameters (p : DEParams) : Except String Unit :=
  if validate_bounds p.lower_bounds p.upper_bounds = false then
    .error "malformed bounds"
  else if p.NP < 4 then
    .error "The population size must be at least 4"
  else if risnan p.mutation_factor || rle (RVal.val 1) p.mutation_factor
      || rle p.mutation_factor (RVal.val 0) then
    .error "F in (0, 1) is required"
  else if p.max_generations < 1 then
    .error "There must be at least one generation"
  else if (p.initial_guess.elim true fun gss =>
      validate_initial_guess gss p.lower_bounds p.upper_bounds) = false then
    .error "invalid initial guess"
  else if p.threads = 0 then
    .error "There must be at least one thread"
  else
    .ok ()

/-- The caller's URBG as two oracle streams over a shared position counter:
`natS` models raw `gen()` outputs, `unifS` models `unif01(gen)` outputs. -/
structure RNG where
  natS : Nat → Nat
  unifS : Nat → ℚ

/-- One `do { r = gen() % NP; } while (r ∈ bad)` rejection-sampling loop,
fueled.  Returns the drawn index and the next stream position. -/
def drawIndex (g : RNG) (NP : Nat) (bad : List Nat) : Nat → Nat → Option (Nat × Nat)
  | _, 0 => none
  | pos, fuel + 1 =>
    let r := g.natS pos % NP
    if r ∈ bad then drawIndex g NP bad (pos + 1) fuel else some (r, pos + 1)

/-- The three rejection-sampling draws for candidate slot `i`
(`r1 ≠ i`, `r2 ∉ {i, r1}`, `r3 ∉ {i, r2, r1}`, in source order). -/
def drawThree (g : RNG) (NP i pos fuel : Nat) : Option ((Nat × Nat × Nat) × Nat) := do
  let (r1, pos1) ← drawIndex g NP [i] pos fuel
  let (r2, pos2) ← drawIndex g NP [i, r1] pos1 fuel
  let (r3, pos3) ← drawIndex g NP [i, r2, r1] pos2 fuel
  some ((r1, r2, r3), pos3)

/-- `population[r][j]` (out-of-range reads default; the optimizer never
performs them). -/
def getq (pop : List (List ℚ)) (r j : Nat) : ℚ := (pop.getD r []).getD j 0

/-- `std::clamp(v, lo, hi)`: `v < lo ? lo : (hi < v ? hi : v)`. -/
def clampq (v lo hi : ℚ) : ℚ := if v < lo then lo else if hi < v then hi else v

/-- Dimension `j` of the trial vector for slot `i`: the source draws
`guaranteed_changed_idx = gen() % dimension` and then evaluates
`unif01(gen) < crossover_probability || j == guaranteed_changed_idx`
(both draws happen on every dimension); the mutant coordinate
`population[r1][j] + F * (population[r2][j] - population[r3][j])` is clamped
into the bounds. -/
def trialCoord (g : RNG) (p : DEParams) (pop : List (List ℚ))
    (r1 r2 r3 i j pos : Nat) : ℚ :=
  let dimension := p.lower_bounds.length
  let idx := g.natS pos % dimension
  let u := g.unifS (pos + 1)
  if rlt (RVal.val u) p.crossover_probability || j == idx then
    let tmp := getq pop r1 j + RVal.toRat p.mutation_factor * (getq pop r2 j - getq pop r3 j)
    clampq tmp (p.lower_bounds.getD j 0) (p.upper_bounds.getD j 0)
  else
    getq pop i j

/-- The inner `for (j = 0; j < dimension; ++j)` crossover loop, consuming two
stream positions per dimension. -/
def trialRowAux (g : RNG) (p : DEParams) (pop : List (List ℚ)) (r1 r2 r3 i : Nat) :
    List Nat → Nat → List ℚ × Nat
  | [], pos => ([], pos)
  | j :: js, pos =>
    let c := trialCoord g p pop r1 r2 r3 i j pos
    let rest := trialRowAux g p pop r1 r2 r3 i js (pos + 2)
    (c :: rest.1, rest.2)

/-- The whole trial vector for slot `i`: three index draws, then the
crossover loop over all dimensions. -/
def trialRow (g : RNG) (p : DEParams) (pop : List (List ℚ)) (i pos fuel : Nat) :
    Option (List ℚ × Nat) := do
  let (rs, pos3) ← drawThree g p.NP i pos fuel
  some (trialRowAux g p pop rs.1 rs.2.1 rs.2.2 i (List.range p.lower_bounds.length) pos3)

/-- Trial vectors for the given slots, threading the stream position. -/
def makeTrialsAux (g : RNG) (p : DEParams) (pop : List (List ℚ)) (fuel : Nat) :
    List Nat → Nat → Option (List (List ℚ) × Nat)
  | [], pos => some ([], pos)
  | i :: is, pos => do
    let (row, pos1) ← trialRow g p pop i pos fuel
    let (rows, pos2) ← makeTrialsAux g p pop fuel is pos1
    some (row :: rows, pos2)

/-- The single-threaded trial-vector generation loop (`for i = 0 .. NP-1`). -/
def makeTrials (g : RNG) (p : DEParams) (pop : List (List ℚ)) (fuel pos : Nat) :
    Option (List (List ℚ) × Nat) :=
  makeTrialsAux g p pop fuel (List.range p.NP) pos

deriving instance DecidableEq for Except

/-- The mutable state of one run.  `evalCount` is instrumentation counting
cost-function invocations; `queries` is the diagnostics log (supplied-log
case); `current_minimum_cost` is the optional best-effort hint. -/
structure RunState where
  population : List (List ℚ)
  cost : List RVal
  queries : List (List ℚ × RVal)
  evalCount : Nat
  target_attained : Bool
  current_minimum_cost : Option RVal
deriving DecidableEq, Repr

/-- `if (current_minimum_cost && cost[i] < *current_minimum_cost) ...` -/
def updateMin (cur : Option RVal) (c : RVal) : Option RVal :=
  match cur with
  | some m => some (if rlt c m then c else m)
  | none => none

/-- One slot of the initial scoring phase: evaluate, update the hint, append
to the log, set `target_attained` when `!isnan(target) && cost[i] <= target`. -/
def initialEvalSlot (f : List ℚ → RVal) (target : RVal) (s : RunState) (i : Nat) :
    RunState :=
  let x := s.population.getD i []
  let c := f x
  { s with
    cost := s.cost.set i c
    current_minimum_cost := updateMin s.current_minimum_cost c
    queries := s.queries ++ [(x, c)]
    evalCount := s.evalCount + 1
    target_attained := s.target_attained || (!risnan target && rle c target) }

/-- The initial scoring phase over all slots (`i < cost.size()`). -/
def initialPhase (f : List ℚ → RVal) (target : RVal) (s : RunState) : RunState :=
  (List.range s.cost.length).foldl (initialEvalSlot f target) s

/-- One slot of the trial scoring phase: flag checks, evaluation, the
`isnan(trial_cost) → continue` rejection, logging, and selection
(`trial_cost < cost[i] || isnan(cost[i])`). -/
def trialEvalSlot (f : List ℚ → RVal) (target : RVal) (cancellation : Bool)
    (trial_vectors : List (List ℚ)) (s : RunState) (i : Nat) : RunState :=
  if s.target_attained then s
  else if cancellation then s
  else
    let tv := trial_vectors.getD i []
    let trial_cost := f tv
    if risnan trial_cost then { s with evalCount := s.evalCount + 1 }
    else
      let queries1 := s.queries ++ [(tv, trial_cost)]
      if rlt trial_cost (s.cost.getD i RVal.nan) || risnan (s.cost.getD i RVal.nan) then
        { s with
          cost := s.cost.set i trial_cost
          queries := queries1
          evalCount := s.evalCount + 1
          target_attained := s.target_attained || (!risnan target && rle trial_cost target)
          current_minimum_cost := updateMin s.current_minimum_cost trial_cost
          population := s.population.set i tv }
      else
        { s with queries := queries1, evalCount := s.evalCount + 1 }

/-- The trial scoring phase over all slots. -/
def trialPhase (f : List ℚ → RVal) (target : RVal) (cancellation : Bool)
    (trial_vectors : List (List ℚ)) (s : RunState) : RunState :=
  (List.range s.cost.length).foldl (trialEvalSlot f target cancellation trial_vectors) s

/-- One generation: generate all trial vectors, then run the trial phase. -/
def generationStep (g : RNG) (p : DEParams) (f : List ℚ → RVal) (target : RVal)
    (cancellation : Bool) (fuel : Nat) (s : RunState) (pos : Nat) :
    Option (RunState × Nat) := do
  let (trial_vectors, pos1) ← makeTrials g p s.population fuel pos
  some (trialPhase f target cancellation trial_vectors s, pos1)

/-- The generation loop with its two top-of-loop exit checks. -/
def generationLoop (g : RNG) (p : DEParams) (f : List ℚ → RVal) (target : RVal)
    (cancellation : Bool) (fuel : Nat) : Nat → RunState → Nat → Option (RunState × Nat)
  | 0, s, pos => some (s, pos)
  | gens + 1, s, pos =>
    if cancellation then some (s, pos)
    else if s.target_attained then some (s, pos)
    else do
      let (s1, pos1) ← generationStep g p f target cancellation fuel s pos
      generationLoop g p f target cancellation fuel gens s1 pos1

/-- The `std::min_element` scan, written as its accumulator recursion:
`smallest` starts at index 0 and is replaced by `k` exactly when
`cost[k] < cost[smallest]` under IEEE `<`. -/
def minElemFold (cost : List RVal) : List Nat → Nat → Nat
  | [], b => b
  | k :: ks, b =>
    minElemFold cost ks (if rlt (cost.getD k RVal.nan) (cost.getD b RVal.nan) then k else b)

/-- `std::distance(cost.begin(), std::min_element(cost.begin(), cost.end()))`. -/
def minElementIdx (cost : List RVal) : Nat :=
  minElemFold cost (List.range cost.length) 0

/-- `differential_evolution`.  `initPop` is the oracle standing in for
`detail::random_initial_population` (modelled from the spec: NP candidates
within the bounds); the optional `initial_guess` overwrites slot 0.  Returns
`.error` on validation failure, `.ok none` on fuel exhaustion in a rejection
loop, and otherwise the returned candidate together with the final state. -/
def differential_evolution (p : DEParams) (f : List ℚ → RVal) (g : RNG)
    (target_value : RVal) (cancellation : Bool) (initPop : List (List ℚ))
    (current_minimum_cost : Option RVal) (fuel : Nat) :
    Except String (Option (List ℚ × RunState)) :=
  match validate_differential_evolution_parameters p with
  | .error e => .error e
  | .ok _ =>
    let population :=
      match p.initial_guess with
      | some guess => initPop.set 0 guess
      | none => initPop
    let s0 : RunState :=
      { population := population
        cost := List.replicate p.NP RVal.nan
        queries := []
        evalCount := 0
        target_attained := false
        current_minimum_cost := current_minimum_cost }
    let s1 := initialPhase f target_value s0
    match generationLoop g p f target_value cancellation fuel p.max_generations s1 0 with
    | none => .ok none
    | some (s2, _) => .ok (some (s2.population.getD (minElementIdx s2.cost) [], s2))

/-- Spec-side notion for the final scan: slot `m` holds a minimal evaluated
cost (its entry is not the NaN sentinel and no entry is IEEE-below it). -/
def isMinSlot (cost : List RVal) (m : Nat) : Prop :=
  m < cost.length ∧ risnan (cost.getD m RVal.nan) = false ∧
    ∀ k < cost.length, rlt (cost.getD k RVal.nan) (cost.getD m RVal.nan) = false

instance (cost : List RVal) (m : Nat) : Decidable (isMinSlot cost m) := by
  unfold isMinSlot; infer_instance

/-- Candidate `x` has the run's dimension and every coordinate within its
bounds. -/
def inBounds (lower upper : List ℚ) (x : List ℚ) : Prop :=
  x.length = lower.length ∧
    ∀ j < lower.length, lower.getD j 0 ≤ x.getD j 0 ∧ x.getD j 0 ≤ upper.getD j 0

instance (lower upper x : List ℚ) : Decidable (inBounds lower upper x) := by
  unfold inBounds; infer_instance

/-- The run-state well-formedness invariant: population and cost vector have
length NP and every candidate is within bounds. -/
def StateOK (p : DEParams) (s : RunState) : Prop :=
  s.population.length = p.NP ∧ s.cost.length = p.NP ∧
    ∀ x ∈ s.population, inBounds p.lower_bounds p.upper_bounds x

/-! ### Concrete scenario data (used by witnesses and counterexamples) -/

/-- One-dimensional parameters: bounds `[0, 10]`, `F = 1/2`, `CR = 1/2`,
`NP = 4`, one generation, one thread. -/
def pW : DEParams :=
  { lower_bounds := [0], upper_bounds := [10],
    mutation_factor := RVal.val (mkRat 1 2), crossover_probability := RVal.val (mkRat 1 2),
    NP := 4, max_generations := 1, initial_guess := none, threads := 1 }

/-- `pW` with population size 3 (rejected by validation). -/
def pBad : DEParams :=
  { lower_bounds := [0], upper_bounds := [10],
    mutation_factor := RVal.val (mkRat 1 2), crossover_probability := RVal.val (mkRat 1 2),
    NP := 3, max_generations := 1, initial_guess := none, threads := 1 }

/-- Generator streams: raw draw at position k is k + 1; uniform draws are 0
(always below `CR = 1/2`). -/
def gW : RNG := ⟨fun k => k + 1, fun _ => 0⟩

def popW : List (List ℚ) := [[0], [1], [2], [3]]

/-- Cost function: the first coordinate. -/
def fW : List ℚ → RVal := fun x => RVal.val (x.getD 0 0)

/-- Cost function that always returns NaN. -/
def fC8 : List ℚ → RVal := fun _ => RVal.nan

/-- The state reached after the initial scoring phase of the `pW`/`fW`
scenario (log entries dropped for reuse as a generic mid-run state). -/
def sW : RunState :=
  { population := popW, cost := [RVal.val 0, RVal.val 1, RVal.val 2, RVal.val 3],
    queries := [], evalCount := 4, target_attained := false,
    current_minimum_cost := none }

/-- The state `generationStep` produces from `sW` in the `pW`/`fW`/`gW`
scenario: the trial vectors are `1/2, 7/2, 5/2, 0` and only slot 3 improves. -/
def s2W : RunState :=
  { population := [[0], [1], [2], [0]],
    cost := [RVal.val 0, RVal.val 1, RVal.val 2, RVal.val 0],
    queries := [([mkRat 1 2], RVal.val (mkRat 1 2)), ([mkRat 7 2], RVal.val (mkRat 7 2)),
                ([mkRat 5 2], RVal.val (mkRat 5 2)), ([0], RVal.val 0)],
    evalCount := 8, target_attained := false, current_minimum_cost := none }

/-- The final state of the full `pW`/`fW`/`gW` run from `popW`. -/
def sFinalW : RunState :=
  { population := [[0], [1], [2], [0]],
    cost := [RVal.val 0, RVal.val 1, RVal.val 2, RVal.val 0],
    queries := [([0], RVal.val 0), ([1], RVal.val 1), ([2], RVal.val 2),
                ([3], RVal.val 3), ([mkRat 1 2], RVal.val (mkRat 1 2)),
                ([mkRat 7 2], RVal.val (mkRat 7 2)),
                ([mkRat 5 2], RVal.val (mkRat 5 2)), ([0], RVal.val 0)],
    evalCount := 8, target_attained := false, current_minimum_cost := none }

/-- The final state of the `pW`/`fC8`/`gW` run from `popW`: eight evaluations
happen but only the four initial-phase ones are logged. -/
def s8W : RunState :=
  { population := popW,
    cost := [RVal.nan, RVal.nan, RVal.nan, RVal.nan],
    queries := [([0], RVal.nan), ([1], RVal.nan), ([2], RVal.nan), ([3], RVal.nan)],
    evalCount := 8, target_attained := false, current_minimum_cost := none }

/-- Two-dimensional parameters for the crossover analysis: `CR = 3/10`. -/
def pC2 : DEParams :=
  { lower_bounds := [0, 0], upper_bounds := [10, 10],
    mutation_factor := RVal.val (mkRat 1 2), crossover_probability := RVal.val (mkRat 3 10),
    NP := 4, max_generations := 1, initial_guess := none, threads := 1 }

/-- Raw draws `1, 2, 3` (indices), then `1` and `0` as the per-dimension
guaranteed-change draws; every uniform draw is `9/10 ≥ CR`. -/
def gC2 : RNG := ⟨fun k => [1, 2, 3, 1, 0].getD k 0, fun _ => mkRat 9 10⟩

def popC2 : List (List ℚ) := [[1, 2], [3, 4], [5, 6], [7, 8]]

/-- The cost order with the NaN sentinel on top: `costLE a b` holds when `b`
is the sentinel, or both are evaluated and `a ≤ b` under IEEE `≤`. -/
def costLE (a b : RVal) : Bool :=
  risnan b || (!risnan a && rle a b)

/-- Minimum of two costs, ignoring the NaN sentinel. -/
def rmin (a b : RVal) : RVal :=
  if risnan a then b else if risnan b then a else if rlt a b then a else b

/-- Minimum cost over the whole population (NaN when nothing is evaluated). -/
def popMinCost (cost : List RVal) : RVal := cost.foldl rmin RVal.nan

end DE

namespace DE

/-! ### Order facts about the IEEE comparisons -/

theorem rlt_nan_right (a : RVal) : rlt a RVal.nan = false := by
  cases a <;> rfl

theorem rlt_irrefl (a : RVal) : rlt a a = false := by
  cases a <;> simp [rlt]

theorem rlt_not_nan {a b : RVal} (h : rlt a b = true) :
    risnan a = false ∧ risnan b = false := by
  cases a <;> cases b <;> simp_all [rlt, risnan]

theorem rle_of_rlt {a b : RVal} (h : rlt a b = true) : rle a b = true := by
  cases a <;> cases b <;> simp_all [rlt, rle] <;> linarith

theorem rlt_trans {a b c : RVal} (h1 : rlt a b = true) (h2 : rlt b c = true) :
    rlt a c = true := by
  cases a <;> cases b <;> cases c <;> simp_all [rlt] <;> linarith

theorem rlt_of_rlt_of_rle {a b c : RVal} (h1 : rlt a b = true) (h2 : rle b c = true) :
    rlt a c = true := by
  cases a <;> cases b <;> cases c <;> simp_all [rlt, rle] <;> linarith

theorem rle_trans {a b c : RVal} (h1 : rle a b = true) (h2 : rle b c = true) :
    rle a c = true := by
  cases a <;> cases b <;> cases c <;> simp_all [rle] <;> linarith

theorem rle_refl_of_not_nan {a : RVal} (h : risnan a = false) : rle a a = true := by
  cases a <;> simp_all [rle, risnan]

theorem rle_of_not_rlt {a b : RVal} (ha : risnan a = false) (hb : risnan b = false)
    (h : rlt a b = false) : rle b a = true := by
  cases a <;> cases b <;> simp_all [rlt, rle, risnan] <;> linarith

theorem costLE_refl (a : RVal) : costLE a a = true := by
  cases a <;> simp [costLE, risnan, rle]

theorem costLE_nan_right (a : RVal) : costLE a RVal.nan = true := by
  simp [costLE, risnan]

theorem costLE_trans {a b c : RVal} (h1 : costLE a b = true) (h2 : costLE b c = true) :
    costLE a c = true := by
  cases a <;> cases b <;> cases c <;> simp_all [costLE, risnan, rle] <;> linarith

theorem rmin_eq_or (a b : RVal) : rmin a b = a ∨ rmin a b = b := by
  unfold rmin; split_ifs <;> simp

theorem rmin_le_left (a b : RVal) : costLE (rmin a b) a = true := by
  cases a <;> cases b <;>
    simp [rmin, costLE, risnan, rle, rlt] <;> split_ifs <;> simp_all <;> linarith

theorem rmin_le_right (a b : RVal) : costLE (rmin a b) b = true := by
  cases a <;> cases b <;>
    simp [rmin, costLE, risnan, rle, rlt] <;> split_ifs <;> simp_all <;> linarith

theorem rmin_mono {a a2 b b2 : RVal} (h1 : costLE a a2 = true) (h2 : costLE b b2 = true) :
    costLE (rmin a b) (rmin a2 b2) = true := by
  rcases rmin_eq_or a2 b2 with h | h <;> rw [h]
  · exact costLE_trans (rmin_le_left a b) h1
  · exact costLE_trans (rmin_le_right a b) h2

/-! ### List helpers -/

theorem getD_set_self {α : Type} (l : List α) (i : Nat) (a d : α) (h : i < l.length) :
    (l.set i a).getD i d = a := by
  induction l generalizing i with
  | nil => simp at h
  | cons x xs ih =>
    cases i with
    | zero => rfl
    | succ n => exact ih n (by simpa using h)

theorem getD_set_ne {α : Type} (l : List α) (i j : Nat) (a d : α) (h : i ≠ j) :
    (l.set i a).getD j d = l.getD j d := by
  induction l generalizing i j with
  | nil => rfl
  | cons x xs ih =>
    cases i with
    | zero =>
      cases j with
      | zero => exact absurd rfl h
      | succ m => rfl
    | succ n =>
      cases j with
      | zero => rfl
      | succ m => exact ih n m fun hnm => h (by omega)

theorem getD_mem {α : Type} (l : List α) (i : Nat) (d : α) (h : i < l.length) :
    l.getD i d ∈ l := by
  induction l generalizing i with
  | nil => simp at h
  | cons x xs ih =>
    cases i with
    | zero => exact List.mem_cons_self x xs
    | succ n => exact List.mem_cons_of_mem x (ih n (by simpa using h))

end DE

namespace DE

theorem risnan_eq_nan {a : RVal} (h : risnan a = true) : a = RVal.nan := by
  cases a <;> simp_all [risnan]

/-! ### C1: selection rule -/

/-- C1 counterexample: with a trial cost of `-infinity` (non-finite but not
NaN) against a finite parent cost, the trial replaces the parent — the claim
that a non-finite trial cost is always discarded is false on the code, which
only discards NaN. -/
theorem C1_selection_counterexample :
    (trialEvalSlot (fun _ => RVal.ninf) RVal.nan false [[1], [1], [1], [1]] sW 0).population
      ≠ sW.population ∧
    risfinite RVal.ninf = false := by
  decide

/-- C1 (amended): with neither flag set, the trial replaces the parent at
slot i (both `population[i]` and `cost[i]`) iff the trial cost is not NaN and
(`trial_cost < cost[i]` under IEEE `<`, or `cost[i]` is the NaN sentinel);
otherwise — in particular for a NaN trial cost — parent and cost are left
unchanged, with no error raised (the step is total). -/
theorem C1_selection_rule_amended (f : List ℚ → RVal) (target : RVal)
    (trial_vectors : List (List ℚ)) (s : RunState) (i : Nat)
    (hta : s.target_attained = false) :
    ((risnan (f (trial_vectors.getD i [])) = false ∧
        (rlt (f (trial_vectors.getD i [])) (s.cost.getD i RVal.nan)
          || risnan (s.cost.getD i RVal.nan)) = true) →
      (trialEvalSlot f target false trial_vectors s i).population
          = s.population.set i (trial_vectors.getD i []) ∧
      (trialEvalSlot f target false trial_vectors s i).cost
          = s.cost.set i (f (trial_vectors.getD i []))) ∧
    ((risnan (f (trial_vectors.getD i [])) = true ∨
        (rlt (f (trial_vectors.getD i [])) (s.cost.getD i RVal.nan)
          || risnan (s.cost.getD i RVal.nan)) = false) →
      (trialEvalSlot f target false trial_vectors s i).population = s.population ∧
      (trialEvalSlot f target false trial_vectors s i).cost = s.cost) := by
  constructor
  · rintro ⟨h1, h2⟩
    simp_all [trialEvalSlot]
  · rintro (h | h)
    · simp_all [trialEvalSlot]
    · cases hn : risnan (f (trial_vectors.getD i [])) <;> simp_all [trialEvalSlot]

theorem C1_selection_rule_amended_witness :
    (trialEvalSlot fW RVal.nan false [[-1], [-1], [-1], [-1]] sW 3).population
        = sW.population.set 3 [-1] ∧
    (trialEvalSlot fW RVal.nan false [[-1], [-1], [-1], [-1]] sW 3).cost
        = sW.cost.set 3 (RVal.val (-1)) := by
  have h := (C1_selection_rule_amended fW RVal.nan [[-1], [-1], [-1], [-1]] sW 3 rfl).1
    (by decide)
  exact h

/-! ### C2: the guaranteed-changed crossover index -/

/-- C2: the source draws `guaranteed_changed_idx` inside the per-dimension
loop, so a trial vector can equal its parent in every dimension.  Concretely,
with `CR = 3/10`, every uniform draw `9/10`, and per-dimension guaranteed
indices `1` (at j = 0) and `0` (at j = 1), the crossover for slot 0 copies
the parent in both dimensions: the produced trial vector is exactly
`population[0]`. -/
theorem C2_guaranteed_index_redrawn_per_dimension :
    trialRow gC2 pC2 popC2 0 0 10 = some (popC2.getD 0 [], 7) ∧
    popC2.getD 0 [] = [1, 2] := by
  decide

end DE

namespace DE

/-! ### C4: the final min-element scan -/

theorem minElemFold_append (cost : List RVal) (l1 l2 : List Nat) (b : Nat) :
    minElemFold cost (l1 ++ l2) b = minElemFold cost l2 (minElemFold cost l1 b) := by
  induction l1 generalizing b with
  | nil => rfl
  | cons k l1 ih => simp [minElemFold, ih]

theorem minElemFold_zero_of_nan (cost : List RVal)
    (h : risnan (cost.getD 0 RVal.nan) = true) (ks : List Nat) :
    minElemFold cost ks 0 = 0 := by
  induction ks with
  | nil => rfl
  | cons k ks ih =>
    have hz : rlt (cost.getD k RVal.nan) (cost.getD 0 RVal.nan) = false := by
      rw [risnan_eq_nan h]; exact rlt_nan_right _
    rw [minElemFold, hz]
    simpa using ih

theorem minElemFold_range_inv (cost : List RVal)
    (h0 : risnan (cost.getD 0 RVal.nan) = false) :
    ∀ n, 1 ≤ n →
      minElemFold cost (List.range n) 0 < n ∧
      risnan (cost.getD (minElemFold cost (List.range n) 0) RVal.nan) = false ∧
      (∀ k < n, rlt (cost.getD k RVal.nan)
          (cost.getD (minElemFold cost (List.range n) 0) RVal.nan) = false) ∧
      (∀ m < minElemFold cost (List.range n) 0,
        rlt (cost.getD (minElemFold cost (List.range n) 0) RVal.nan)
            (cost.getD m RVal.nan) = true ∨
          risnan (cost.getD m RVal.nan) = true) := by
  intro n hn
  induction n, hn using Nat.le_induction with
  | base =>
    have hr1 : List.range 1 = [0] := rfl
    have e : minElemFold cost (List.range 1) 0 = 0 := by
      rw [hr1, minElemFold, rlt_irrefl]
      rfl
    rw [e]
    refine ⟨Nat.zero_lt_one, h0, ?_, ?_⟩
    · intro k hk
      have hk0 : k = 0 := by omega
      subst hk0
      exact rlt_irrefl _
    · intro m hm
      exact absurd hm (Nat.not_lt_zero m)
  | succ n hn ih =>
    obtain ⟨hbn, hbnan, hmin, hleast⟩ := ih
    set b := minElemFold cost (List.range n) 0 with hbdef
    have hsplit : minElemFold cost (List.range (n + 1)) 0
        = if rlt (cost.getD n RVal.nan) (cost.getD b RVal.nan) then n else b := by
      rw [List.range_succ, minElemFold_append, ← hbdef]
      simp [minElemFold]
    by_cases hlt : rlt (cost.getD n RVal.nan) (cost.getD b RVal.nan) = true
    · rw [hsplit, if_pos hlt]
      refine ⟨by omega, (rlt_not_nan hlt).1, ?_, ?_⟩
      · intro k hk
        rcases Nat.lt_succ_iff_lt_or_eq.mp hk with hk2 | hk2
        · cases hck : rlt (cost.getD k RVal.nan) (cost.getD n RVal.nan)
          · rfl
          · have hc := rlt_trans hck hlt
            rw [hmin k hk2] at hc
            exact absurd hc (by simp)
        · subst hk2
          exact rlt_irrefl _
      · intro m hm
        by_cases hmb : m = b
        · subst hmb
          exact Or.inl hlt
        · rcases Nat.lt_or_ge m b with hmb2 | hmb2
          · rcases hleast m hmb2 with hx | hx
            · exact Or.inl (rlt_trans hlt hx)
            · exact Or.inr hx
          · have hmf : rlt (cost.getD m RVal.nan) (cost.getD b RVal.nan) = false :=
              hmin m (by omega)
            cases hmn : risnan (cost.getD m RVal.nan)
            · have hle := rle_of_not_rlt hmn hbnan hmf
              exact Or.inl (rlt_of_rlt_of_rle hlt hle)
            · exact Or.inr rfl
    · have hltf : rlt (cost.getD n RVal.nan) (cost.getD b RVal.nan) = false := by
        simpa using hlt
      rw [hsplit, if_neg hlt]
      refine ⟨by omega, hbnan, ?_, hleast⟩
      intro k hk
      rcases Nat.lt_succ_iff_lt_or_eq.mp hk with hk2 | hk2
      · exact hmin k hk2
      · subst hk2
        exact hltf

/-- C4 counterexample: with final cost vector `[NaN, 1]`, `std::min_element`
under IEEE `<` returns slot 0 (nothing compares below NaN), although slot 1
is the (unique) slot holding a minimal evaluated cost. -/
theorem C4_min_element_counterexample :
    minElementIdx [RVal.nan, RVal.val 1] = 0 ∧
    isMinSlot [RVal.nan, RVal.val 1] 1 ∧
    ¬ isMinSlot [RVal.nan, RVal.val 1] 0 := by
  decide

/-- C4 (amended): the returned slot is the result of the `std::min_element`
fold under IEEE `<`: if `cost[0]` is the NaN sentinel the scan returns slot 0
regardless of the other entries; otherwise it returns the lowest-index slot
holding a minimal non-NaN cost (ties broken in favour of the lowest index,
NaN entries never selected). -/
theorem C4_min_element_amended (cost : List RVal) (h : cost ≠ []) :
    (risnan (cost.getD 0 RVal.nan) = true → minElementIdx cost = 0) ∧
    (risnan (cost.getD 0 RVal.nan) = false →
      isMinSlot cost (minElementIdx cost) ∧
        ∀ m, isMinSlot cost m → minElementIdx cost ≤ m) := by
  have hlen : 1 ≤ cost.length := List.length_pos.mpr h
  constructor
  · intro h0
    exact minElemFold_zero_of_nan cost h0 _
  · intro h0
    obtain ⟨h1, h2, h3, h4⟩ := minElemFold_range_inv cost h0 cost.length hlen
    refine ⟨⟨h1, h2, h3⟩, ?_⟩
    intro m hm
    by_contra hcon
    push_neg at hcon
    rcases h4 m hcon with hx | hx
    · rw [hm.2.2 (minElemFold cost (List.range cost.length) 0) h1] at hx
      exact absurd hx (by simp)
    · rw [hm.2.1] at hx
      exact absurd hx (by simp)

theorem C4_min_element_amended_witness :
    isMinSlot [RVal.val 2, RVal.val 1, RVal.val 1]
        (minElementIdx [RVal.val 2, RVal.val 1, RVal.val 1]) ∧
      ∀ m, isMinSlot [RVal.val 2, RVal.val 1, RVal.val 1] m →
        minElementIdx [RVal.val 2, RVal.val 1, RVal.val 1] ≤ m :=
  (C4_min_element_amended [RVal.val 2, RVal.val 1, RVal.val 1] (by decide)).2 (by decide)

end DE

namespace DE

/-! ### C5: eager validation -/

theorem validate_ok_facts (p : DEParams)
    (h : validate_differential_evolution_parameters p = Except.ok ()) :
    validate_bounds p.lower_bounds p.upper_bounds = true ∧ 4 ≤ p.NP ∧
    risnan p.mutation_factor = false ∧
    rle (RVal.val 1) p.mutation_factor = false ∧
    rle p.mutation_factor (RVal.val 0) = false ∧
    1 ≤ p.max_generations ∧
    (∀ gss, p.initial_guess = some gss →
      validate_initial_guess gss p.lower_bounds p.upper_bounds = true) ∧
    p.threads ≠ 0 := by
  unfold validate_differential_evolution_parameters at h
  split_ifs at h with h1 h2 h3 h4 h5 h6
  refine ⟨by simpa using h1, by omega, ?_, ?_, ?_, by omega, ?_, h6⟩
  · cases hx : risnan p.mutation_factor
    · rfl
    · rw [hx] at h3; simp at h3
  · cases hx : rle (RVal.val 1) p.mutation_factor
    · rfl
    · rw [hx] at h3; simp at h3
  · cases hx : rle p.mutation_factor (RVal.val 0)
    · rfl
    · rw [hx] at h3; simp at h3
  · intro gss hg
    rw [hg] at h5
    simpa using h5

/-- C5: any of the rejected configurations — malformed bounds, NP < 4, NaN
mutation factor, F = 0, F = 1, F outside (0,1) under IEEE comparison,
max_generations < 1, zero threads, or an invalid initial guess — makes
`differential_evolution` return a configuration error, and the run is
independent of the cost function, the generator, the target, the
cancellation flag and the initial population (so the objective is never
invoked and there is no partial result). -/
theorem C5_eager_validation (p : DEParams)
    (f f2 : List ℚ → RVal) (g g2 : RNG) (t t2 : RVal) (c c2 : Bool)
    (ip ip2 : List (List ℚ)) (cm cm2 : Option RVal) (fuel fuel2 : Nat)
    (h : validate_bounds p.lower_bounds p.upper_bounds = false ∨ p.NP < 4 ∨
         risnan p.mutation_factor = true ∨ p.mutation_factor = RVal.val 0 ∨
         p.mutation_factor = RVal.val 1 ∨
         rle (RVal.val 1) p.mutation_factor = true ∨
         rle p.mutation_factor (RVal.val 0) = true ∨ p.max_generations < 1 ∨
         p.threads = 0 ∨
         ∃ gss, p.initial_guess = some gss ∧
           validate_initial_guess gss p.lower_bounds p.upper_bounds = false) :
    (∃ e, differential_evolution p f g t c ip cm fuel = Except.error e) ∧
    differential_evolution p f g t c ip cm fuel =
      differential_evolution p f2 g2 t2 c2 ip2 cm2 fuel2 := by
  have hval : ∃ e, validate_differential_evolution_parameters p = Except.error e := by
    cases hv : validate_differential_evolution_parameters p with
    | error e => exact ⟨e, rfl⟩
    | ok u =>
      cases u
      obtain ⟨hb, hnp, hnan, hge1, hle0, hgen, hguess, hthr⟩ := validate_ok_facts p hv
      exfalso
      rcases h with h | h | h | h | h | h | h | h | h | h
      · rw [hb] at h; exact absurd h (by simp)
      · omega
      · rw [hnan] at h; exact absurd h (by simp)
      · rw [h] at hle0; simp [rle] at hle0
      · rw [h] at hge1; simp [rle] at hge1
      · rw [hge1] at h; exact absurd h (by simp)
      · rw [hle0] at h; exact absurd h (by simp)
      · omega
      · exact hthr h
      · obtain ⟨gss, hg, hbad⟩ := h
        rw [hguess gss hg] at hbad
        exact absurd hbad (by simp)
  obtain ⟨e, he⟩ := hval
  constructor
  · exact ⟨e, by simp [differential_evolution, he]⟩
  · simp [differential_evolution, he]

theorem C5_eager_validation_witness :
    ∃ e, differential_evolution pBad fW gW RVal.nan false popW none 20
      = Except.error e :=
  (C5_eager_validation pBad fW fW gW gW RVal.nan RVal.nan false false popW popW
    none none 20 20 (Or.inr (Or.inl (by decide)))).1

end DE

namespace DE

/-! ### C10: the crossover probability is never validated -/

/-- C10: parameter validation is independent of `crossover_probability` (so
any value — NaN and infinities included — passes), and the value governs the
per-dimension crossover decision: when `unif01(gen) < CR` is false (and j is
not the guaranteed index) the parent coordinate is kept, and when it is true
the clamped mutant coordinate is taken. -/
theorem C10_crossover_probability_unvalidated (p : DEParams) (cr cr2 : RVal)
    (g : RNG) (pop : List (List ℚ)) (r1 r2 r3 i j pos : Nat) :
    validate_differential_evolution_parameters { p with crossover_probability := cr } =
      validate_differential_evolution_parameters { p with crossover_probability := cr2 } ∧
    (rlt (RVal.val (g.unifS (pos + 1))) p.crossover_probability = false →
      (j == g.natS pos % p.lower_bounds.length) = false →
      trialCoord g p pop r1 r2 r3 i j pos = getq pop i j) ∧
    (rlt (RVal.val (g.unifS (pos + 1))) p.crossover_probability = true →
      trialCoord g p pop r1 r2 r3 i j pos =
        clampq (getq pop r1 j + RVal.toRat p.mutation_factor * (getq pop r2 j - getq pop r3 j))
          (p.lower_bounds.getD j 0) (p.upper_bounds.getD j 0)) := by
  refine ⟨rfl, ?_, ?_⟩
  · intro h1 h2
    simp [trialCoord, h1, h2]
  · intro h1
    simp [trialCoord, h1]

theorem C10_crossover_probability_unvalidated_witness :
    validate_differential_evolution_parameters { pW with crossover_probability := RVal.nan } =
      validate_differential_evolution_parameters { pW with crossover_probability := RVal.pinf } ∧
    trialCoord gW pW popW 1 2 3 0 0 0 =
      clampq (getq popW 1 0 + RVal.toRat pW.mutation_factor * (getq popW 2 0 - getq popW 3 0))
        (pW.lower_bounds.getD 0 0) (pW.upper_bounds.getD 0 0) :=
  ⟨(C10_crossover_probability_unvalidated pW RVal.nan RVal.pinf gW popW 1 2 3 0 0 0).1,
   (C10_crossover_probability_unvalidated pW RVal.nan RVal.pinf gW popW 1 2 3 0 0 0).2.2
     (by decide)⟩

/-! ### C7: selection never regresses a slot -/

theorem set_of_length_le {α : Type} (l : List α) (i : Nat) (a : α) (h : l.length ≤ i) :
    l.set i a = l := by
  induction l generalizing i with
  | nil => rfl
  | cons x xs ih =>
    cases i with
    | zero => simp at h
    | succ n =>
      have hx := ih n (by simpa using h)
      simp [List.set, hx]

theorem trialEvalSlot_cost_costLE (f : List ℚ → RVal) (target : RVal) (cancellation : Bool)
    (tvs : List (List ℚ)) (s : RunState) (i k : Nat) :
    costLE ((trialEvalSlot f target cancellation tvs s i).cost.getD k RVal.nan)
      (s.cost.getD k RVal.nan) = true := by
  simp only [trialEvalSlot]
  split_ifs with h1 h2 h3 h4
  · exact costLE_refl _
  · exact costLE_refl _
  · exact costLE_refl _
  · show costLE ((s.cost.set i (f (tvs.getD i []))).getD k RVal.nan)
      (s.cost.getD k RVal.nan) = true
    by_cases hk : k = i
    · subst hk
      by_cases hik : k < s.cost.length
      · rw [getD_set_self _ _ _ _ hik]
        cases hx : rlt (f (tvs.getD k [])) (s.cost.getD k RVal.nan)
        · rw [hx] at h4
          simp only [Bool.false_or] at h4
          unfold costLE
          rw [h4]
          rfl
        · have hnn := rlt_not_nan hx
          unfold costLE
          rw [hnn.1, hnn.2, rle_of_rlt hx]
          rfl
      · rw [set_of_length_le _ _ _ (by omega)]
        exact costLE_refl _
    · rw [getD_set_ne _ _ _ _ _ fun he => hk he.symm]
      exact costLE_refl _
  · exact costLE_refl _

theorem trialEvalSlot_cost_length (f : List ℚ → RVal) (target : RVal) (cancellation : Bool)
    (tvs : List (List ℚ)) (s : RunState) (i : Nat) :
    (trialEvalSlot f target cancellation tvs s i).cost.length = s.cost.length := by
  simp only [trialEvalSlot]
  split_ifs <;> simp [List.length_set]

theorem foldl_trialEvalSlot_costLE (f : List ℚ → RVal) (target : RVal) (cancellation : Bool)
    (tvs : List (List ℚ)) :
    ∀ (l : List Nat) (s : RunState) (k : Nat),
      costLE ((l.foldl (trialEvalSlot f target cancellation tvs) s).cost.getD k RVal.nan)
        (s.cost.getD k RVal.nan) = true := by
  intro l
  induction l with
  | nil => intro s k; exact costLE_refl _
  | cons i l ih =>
    intro s k
    exact costLE_trans (ih _ k) (trialEvalSlot_cost_costLE f target cancellation tvs s i k)

theorem foldl_trialEvalSlot_cost_length (f : List ℚ → RVal) (target : RVal)
    (cancellation : Bool) (tvs : List (List ℚ)) :
    ∀ (l : List Nat) (s : RunState),
      (l.foldl (trialEvalSlot f target cancellation tvs) s).cost.length = s.cost.length := by
  intro l
  induction l with
  | nil => intro s; rfl
  | cons i l ih =>
    intro s
    rw [List.foldl_cons, ih _, trialEvalSlot_cost_length]

theorem foldl_rmin_mono :
    ∀ (l l2 : List RVal), l.length = l2.length →
      (∀ i, costLE (l.getD i RVal.nan) (l2.getD i RVal.nan) = true) →
      ∀ acc acc2, costLE acc acc2 = true →
        costLE (l.foldl rmin acc) (l2.foldl rmin acc2) = true := by
  intro l
  induction l with
  | nil =>
    intro l2 hlen hpt acc acc2 hacc
    cases l2 with
    | nil => exact hacc
    | cons a2 l2 => simp at hlen
  | cons a l ih =>
    intro l2 hlen hpt acc acc2 hacc
    cases l2 with
    | nil => simp at hlen
    | cons a2 l2 =>
      have hh : costLE a a2 = true := hpt 0
      exact ih l2 (by simpa using hlen) (fun i => hpt (i + 1)) _ _ (rmin_mono hacc hh)

/-- C7: across one generation (trial-vector creation followed by the trial
scoring phase with its selection rule), every slot's cost is non-increasing
in the order that puts the NaN sentinel on top, and consequently the
population-wide minimum cost is non-increasing as well. -/
theorem C7_monotone_cost (g : RNG) (p : DEParams) (f : List ℚ → RVal) (target : RVal)
    (cancellation : Bool) (fuel : Nat) (s : RunState) (pos : Nat) (s2 : RunState)
    (pos2 : Nat)
    (h : generationStep g p f target cancellation fuel s pos = some (s2, pos2)) :
    (∀ i, costLE (s2.cost.getD i RVal.nan) (s.cost.getD i RVal.nan) = true) ∧
    costLE (popMinCost s2.cost) (popMinCost s.cost) = true := by
  unfold generationStep at h
  cases hmk : makeTrials g p s.population fuel pos with
  | none => rw [hmk] at h; simp at h
  | some tp =>
    obtain ⟨tvs, pos1⟩ := tp
    rw [hmk] at h
    simp only [Option.bind_eq_bind, Option.some_bind, Option.some.injEq, Prod.mk.injEq] at h
    obtain ⟨hs2, hpos⟩ := h
    have hpt : ∀ i, costLE (s2.cost.getD i RVal.nan) (s.cost.getD i RVal.nan) = true := by
      intro i
      rw [← hs2]
      exact foldl_trialEvalSlot_costLE f target cancellation tvs _ s i
    refine ⟨hpt, ?_⟩
    have hlen : s2.cost.length = s.cost.length := by
      rw [← hs2]
      exact foldl_trialEvalSlot_cost_length f target cancellation tvs _ s
    exact foldl_rmin_mono s2.cost s.cost hlen hpt RVal.nan RVal.nan (costLE_refl _)

unseal Rat.add Rat.mul Rat.sub in
theorem C7_monotone_cost_witness :
    costLE (popMinCost s2W.cost) (popMinCost sW.cost) = true :=
  (C7_monotone_cost gW pW fW RVal.nan false 20 sW 0 s2W 20 (by decide)).2

/-! ### C8: the diagnostics log -/

unseal Rat.add Rat.mul Rat.sub in
/-- C8 counterexample: with a cost function that always returns NaN, the run
performs 8 objective evaluations (4 initial, 4 trial) but logs only the 4
initial-phase ones — the trial phase's `isnan(trial_cost) → continue` skips
the log append. -/
theorem C8_log_counterexample :
    differential_evolution pW fC8 gW RVal.nan false popW none 20 =
      Except.ok (some ([0], s8W)) ∧
    s8W.evalCount = 8 ∧ s8W.queries.length = 4 := by
  decide

/-- C8 (amended): every initial-phase evaluation is logged (NaN costs
included); a trial-phase evaluation is logged iff its cost is not NaN — a
NaN trial cost is evaluated but produces no log entry. -/
theorem C8_logging_amended (f : List ℚ → RVal) (target : RVal)
    (tvs : List (List ℚ)) (s : RunState) (i : Nat)
    (hta : s.target_attained = false) :
    ((initialEvalSlot f target s i).queries
        = s.queries ++ [(s.population.getD i [], f (s.population.getD i []))] ∧
      (initialEvalSlot f target s i).evalCount = s.evalCount + 1) ∧
    ((trialEvalSlot f target false tvs s i).evalCount = s.evalCount + 1) ∧
    (risnan (f (tvs.getD i [])) = false →
      (trialEvalSlot f target false tvs s i).queries
        = s.queries ++ [(tvs.getD i [], f (tvs.getD i []))]) ∧
    (risnan (f (tvs.getD i [])) = true →
      (trialEvalSlot f target false tvs s i).queries = s.queries) := by
  refine ⟨⟨rfl, rfl⟩, ?_, ?_, ?_⟩
  · cases hn : risnan (f (tvs.getD i []))
    · cases hsel : (rlt (f (tvs.getD i [])) (s.cost.getD i RVal.nan)
          || risnan (s.cost.getD i RVal.nan)) <;> simp_all [trialEvalSlot]
    · simp_all [trialEvalSlot]
  · intro hn
    cases hsel : (rlt (f (tvs.getD i [])) (s.cost.getD i RVal.nan)
        || risnan (s.cost.getD i RVal.nan)) <;> simp_all [trialEvalSlot]
  · intro hn
    simp_all [trialEvalSlot]

theorem C8_logging_amended_witness :
    (trialEvalSlot fC8 RVal.nan false [[1], [1], [1], [1]] sW 0).queries = sW.queries :=
  (C8_logging_amended fC8 RVal.nan [[1], [1], [1], [1]] sW 0 rfl).2.2.2 (by decide)

end DE

namespace DE

/-! ### C6: bound containment -/

theorem validate_bounds_facts (lower upper : List ℚ)
    (h : validate_bounds lower upper = true) :
    lower.length = upper.length ∧
      ∀ j < lower.length, lower.getD j 0 < upper.getD j 0 := by
  unfold validate_bounds at h
  rw [Bool.and_eq_true] at h
  obtain ⟨h1, h2⟩ := h
  refine ⟨by simpa using h1, ?_⟩
  intro j hj
  rw [List.all_eq_true] at h2
  have hx := h2 j (List.mem_range.mpr hj)
  simpa using hx

theorem validate_initial_guess_facts (guess lower upper : List ℚ)
    (h : validate_initial_guess guess lower upper = true) :
    inBounds lower upper guess := by
  unfold validate_initial_guess at h
  rw [Bool.and_eq_true] at h
  obtain ⟨h1, h2⟩ := h
  refine ⟨by simpa using h1, ?_⟩
  intro j hj
  rw [List.all_eq_true] at h2
  have hx := h2 j (List.mem_range.mpr hj)
  simpa using hx

theorem clampq_mem (v lo hi : ℚ) (h : lo ≤ hi) :
    lo ≤ clampq v lo hi ∧ clampq v lo hi ≤ hi := by
  unfold clampq
  split_ifs with h1 h2
  · exact ⟨le_refl lo, h⟩
  · exact ⟨h, le_refl hi⟩
  · constructor <;> linarith

theorem trialCoord_inBounds (g : RNG) (p : DEParams) (pop : List (List ℚ))
    (r1 r2 r3 i j pos : Nat)
    (hb : ∀ j2 < p.lower_bounds.length,
      p.lower_bounds.getD j2 0 < p.upper_bounds.getD j2 0)
    (hpop : ∀ x ∈ pop, inBounds p.lower_bounds p.upper_bounds x)
    (hi : i < pop.length) (hj : j < p.lower_bounds.length) :
    p.lower_bounds.getD j 0 ≤ trialCoord g p pop r1 r2 r3 i j pos ∧
      trialCoord g p pop r1 r2 r3 i j pos ≤ p.upper_bounds.getD j 0 := by
  simp only [trialCoord]
  split_ifs with h1
  · exact clampq_mem _ _ _ (le_of_lt (hb j hj))
  · exact (hpop (pop.getD i []) (getD_mem pop i [] hi)).2 j hj

theorem getD_range (n k : Nat) (h : k < n) : (List.range n).getD k 0 = k := by
  induction n with
  | zero => omega
  | succ m ih =>
    rw [List.range_succ]
    rcases Nat.lt_or_ge k m with hk | hk
    · rw [List.getD_append _ _ _ _ (by simpa using hk)]
      exact ih hk
    · have hkm : k = m := by omega
      subst hkm
      rw [List.getD_eq_getElem?_getD, List.getElem?_append_right (by simp),
        List.length_range]
      simp

theorem trialRowAux_bounds (g : RNG) (p : DEParams) (pop : List (List ℚ))
    (r1 r2 r3 i : Nat)
    (hb : ∀ j2 < p.lower_bounds.length,
      p.lower_bounds.getD j2 0 < p.upper_bounds.getD j2 0)
    (hpop : ∀ x ∈ pop, inBounds p.lower_bounds p.upper_bounds x)
    (hi : i < pop.length) :
    ∀ (js : List Nat) (pos : Nat), (∀ j ∈ js, j < p.lower_bounds.length) →
      (trialRowAux g p pop r1 r2 r3 i js pos).1.length = js.length ∧
      ∀ k < js.length,
        p.lower_bounds.getD (js.getD k 0) 0
            ≤ (trialRowAux g p pop r1 r2 r3 i js pos).1.getD k 0 ∧
          (trialRowAux g p pop r1 r2 r3 i js pos).1.getD k 0
            ≤ p.upper_bounds.getD (js.getD k 0) 0 := by
  intro js
  induction js with
  | nil =>
    intro pos hjs
    exact ⟨rfl, fun k hk => absurd hk (Nat.not_lt_zero k)⟩
  | cons j js ih =>
    intro pos hjs
    have hj : j < p.lower_bounds.length := hjs j (List.mem_cons_self j js)
    obtain ⟨ihl, ihb⟩ := ih (pos + 2) fun j2 hj2 => hjs j2 (List.mem_cons_of_mem j hj2)
    constructor
    · show (trialRowAux g p pop r1 r2 r3 i js (pos + 2)).1.length + 1 = js.length + 1
      rw [ihl]
    · intro k hk
      cases k with
      | zero => exact trialCoord_inBounds g p pop r1 r2 r3 i j pos hb hpop hi hj
      | succ n => exact ihb n (by simpa using hk)

theorem trialRow_inBounds (g : RNG) (p : DEParams) (pop : List (List ℚ))
    (i pos fuel : Nat) (row : List ℚ) (pos2 : Nat)
    (hb : ∀ j2 < p.lower_bounds.length,
      p.lower_bounds.getD j2 0 < p.upper_bounds.getD j2 0)
    (hpop : ∀ x ∈ pop, inBounds p.lower_bounds p.upper_bounds x)
    (hi : i < pop.length)
    (h : trialRow g p pop i pos fuel = some (row, pos2)) :
    inBounds p.lower_bounds p.upper_bounds row := by
  unfold trialRow at h
  cases hd : drawThree g p.NP i pos fuel with
  | none => rw [hd] at h; simp at h
  | some rp =>
    obtain ⟨rs, pos3⟩ := rp
    rw [hd] at h
    simp only [Option.bind_eq_bind, Option.some_bind, Option.some.injEq] at h
    have hbnds := trialRowAux_bounds g p pop rs.1 rs.2.1 rs.2.2 i hb hpop hi
      (List.range p.lower_bounds.length) pos3 fun j hj => List.mem_range.mp hj
    have hrow : row = (trialRowAux g p pop rs.1 rs.2.1 rs.2.2 i
        (List.range p.lower_bounds.length) pos3).1 := by
      rw [h]
    constructor
    · rw [hrow, hbnds.1, List.length_range]
    · intro j hj
      have hx := hbnds.2 j (by rw [List.length_range]; exact hj)
      rw [getD_range _ _ hj] at hx
      rw [hrow]
      exact hx

theorem makeTrialsAux_inBounds (g : RNG) (p : DEParams) (pop : List (List ℚ))
    (fuel : Nat)
    (hb : ∀ j2 < p.lower_bounds.length,
      p.lower_bounds.getD j2 0 < p.upper_bounds.getD j2 0)
    (hpop : ∀ x ∈ pop, inBounds p.lower_bounds p.upper_bounds x) :
    ∀ (is : List Nat) (pos : Nat) (tvs : List (List ℚ)) (pos2 : Nat),
      (∀ i ∈ is, i < pop.length) →
      makeTrialsAux g p pop fuel is pos = some (tvs, pos2) →
      tvs.length = is.length ∧
        ∀ row ∈ tvs, inBounds p.lower_bounds p.upper_bounds row := by
  intro is
  induction is with
  | nil =>
    intro pos tvs pos2 his h
    simp only [makeTrialsAux, Option.some.injEq] at h
    have htvs : tvs = [] := by
      have hx := congrArg Prod.fst h
      exact hx.symm
    subst htvs
    exact ⟨rfl, fun row hrow => absurd hrow (List.not_mem_nil row)⟩
  | cons i is ih =>
    intro pos tvs pos2 his h
    unfold makeTrialsAux at h
    cases htr : trialRow g p pop i pos fuel with
    | none => rw [htr] at h; simp at h
    | some rp =>
      obtain ⟨row, pos1⟩ := rp
      rw [htr] at h
      simp only [Option.bind_eq_bind, Option.some_bind] at h
      cases hmk : makeTrialsAux g p pop fuel is pos1 with
      | none => rw [hmk] at h; simp at h
      | some rsp =>
        obtain ⟨rows, pos2b⟩ := rsp
        rw [hmk] at h
        simp only [Option.some_bind, Option.some.injEq, Prod.mk.injEq] at h
        obtain ⟨htvs, _⟩ := h
        obtain ⟨ihl, ihm⟩ := ih pos1 rows pos2b
          (fun i2 hi2 => his i2 (List.mem_cons_of_mem i hi2)) hmk
        constructor
        · rw [← htvs]
          simp [ihl]
        · intro r hr
          rw [← htvs] at hr
          rcases List.mem_cons.mp hr with hr2 | hr2
          · rw [hr2]
            exact trialRow_inBounds g p pop i pos fuel row pos1 hb hpop
              (his i (List.mem_cons_self i is)) htr
          · exact ihm r hr2

theorem initialPhase_pop (f : List ℚ → RVal) (target : RVal) :
    ∀ (l : List Nat) (s : RunState),
      (l.foldl (initialEvalSlot f target) s).population = s.population ∧
        (l.foldl (initialEvalSlot f target) s).cost.length = s.cost.length := by
  intro l
  induction l with
  | nil => exact fun s => ⟨rfl, rfl⟩
  | cons i l ih =>
    intro s
    obtain ⟨h1, h2⟩ := ih (initialEvalSlot f target s i)
    constructor
    · rw [List.foldl_cons, h1]
      rfl
    · rw [List.foldl_cons, h2]
      show (s.cost.set i (f (s.population.getD i []))).length = s.cost.length
      rw [List.length_set]

theorem initialPhase_StateOK (p : DEParams) (f : List ℚ → RVal) (target : RVal)
    (s : RunState) (hok : StateOK p s) : StateOK p (initialPhase f target s) := by
  obtain ⟨hpl, hcl, hmem⟩ := hok
  obtain ⟨h1, h2⟩ := initialPhase_pop f target (List.range s.cost.length) s
  refine ⟨?_, ?_, ?_⟩
  · rw [show (initialPhase f target s).population = s.population from h1]
    exact hpl
  · rw [show (initialPhase f target s).cost.length = s.cost.length from h2]
    exact hcl
  · rw [show (initialPhase f target s).population = s.population from h1]
    exact hmem

theorem trialEvalSlot_StateOK (p : DEParams) (f : List ℚ → RVal) (target : RVal)
    (cancel : Bool) (tvs : List (List ℚ)) (s : RunState) (i : Nat)
    (hok : StateOK p s) (hi : i < p.NP)
    (htvs : ∀ i2 < p.NP, inBounds p.lower_bounds p.upper_bounds (tvs.getD i2 [])) :
    StateOK p (trialEvalSlot f target cancel tvs s i) := by
  obtain ⟨hpl, hcl, hmem⟩ := hok
  simp only [trialEvalSlot]
  split_ifs with h1 h2 h3 h4
  · exact ⟨hpl, hcl, hmem⟩
  · exact ⟨hpl, hcl, hmem⟩
  · exact ⟨hpl, hcl, hmem⟩
  · refine ⟨?_, ?_, ?_⟩
    · show (s.population.set i (tvs.getD i [])).length = p.NP
      rw [List.length_set]
      exact hpl
    · show (s.cost.set i (f (tvs.getD i []))).length = p.NP
      rw [List.length_set]
      exact hcl
    · intro x hx
      rcases List.mem_or_eq_of_mem_set hx with hx2 | hx2
      · exact hmem x hx2
      · rw [hx2]
        exact htvs i hi
  · exact ⟨hpl, hcl, hmem⟩

theorem foldl_trialEvalSlot_StateOK (p : DEParams) (f : List ℚ → RVal) (target : RVal)
    (cancel : Bool) (tvs : List (List ℚ))
    (htvs : ∀ i2 < p.NP, inBounds p.lower_bounds p.upper_bounds (tvs.getD i2 [])) :
    ∀ (l : List Nat) (s : RunState), (∀ i ∈ l, i < p.NP) → StateOK p s →
      StateOK p (l.foldl (trialEvalSlot f target cancel tvs) s) := by
  intro l
  induction l with
  | nil => exact fun s _ hok => hok
  | cons i l ih =>
    intro s hl hok
    rw [List.foldl_cons]
    exact ih _ (fun i2 hi2 => hl i2 (List.mem_cons_of_mem i hi2))
      (trialEvalSlot_StateOK p f target cancel tvs s i hok
        (hl i (List.mem_cons_self i l)) htvs)

theorem generationStep_StateOK (g : RNG) (p : DEParams) (f : List ℚ → RVal)
    (target : RVal) (cancel : Bool) (fuel : Nat) (s : RunState) (pos : Nat)
    (s2 : RunState) (pos2 : Nat)
    (hb : ∀ j2 < p.lower_bounds.length,
      p.lower_bounds.getD j2 0 < p.upper_bounds.getD j2 0)
    (hok : StateOK p s)
    (h : generationStep g p f target cancel fuel s pos = some (s2, pos2)) :
    StateOK p s2 := by
  unfold generationStep at h
  cases hmk : makeTrials g p s.population fuel pos with
  | none => rw [hmk] at h; simp at h
  | some tp =>
    obtain ⟨tvs, pos1⟩ := tp
    rw [hmk] at h
    simp only [Option.bind_eq_bind, Option.some_bind, Option.some.injEq,
      Prod.mk.injEq] at h
    obtain ⟨hs2, _⟩ := h
    obtain ⟨hpl, hcl, hmem⟩ := hok
    have hmk2 : makeTrialsAux g p s.population fuel (List.range p.NP) pos
        = some (tvs, pos1) := hmk
    obtain ⟨hl, hm⟩ := makeTrialsAux_inBounds g p s.population fuel hb hmem
      (List.range p.NP) pos tvs pos1
      (fun i hi => by rw [hpl]; exact List.mem_range.mp hi) hmk2
    have htvs : ∀ i2 < p.NP, inBounds p.lower_bounds p.upper_bounds (tvs.getD i2 []) := by
      intro i2 hi2
      apply hm
      apply getD_mem
      rw [hl, List.length_range]
      exact hi2
    rw [← hs2]
    exact foldl_trialEvalSlot_StateOK p f target cancel tvs htvs
      (List.range s.cost.length) s
      (fun i hi => by rw [← hcl]; exact List.mem_range.mp hi) ⟨hpl, hcl, hmem⟩

theorem generationLoop_StateOK (g : RNG) (p : DEParams) (f : List ℚ → RVal)
    (target : RVal) (cancel : Bool) (fuel : Nat)
    (hb : ∀ j2 < p.lower_bounds.length,
      p.lower_bounds.getD j2 0 < p.upper_bounds.getD j2 0) :
    ∀ (gens : Nat) (s : RunState) (pos : Nat) (s2 : RunState) (pos2 : Nat),
      StateOK p s →
      generationLoop g p f target cancel fuel gens s pos = some (s2, pos2) →
      StateOK p s2 := by
  intro gens
  induction gens with
  | zero =>
    intro s pos s2 pos2 hok h
    simp only [generationLoop, Option.some.injEq, Prod.mk.injEq] at h
    obtain ⟨hs, _⟩ := h
    rw [← hs]
    exact hok
  | succ n ih =>
    intro s pos s2 pos2 hok h
    unfold generationLoop at h
    split_ifs at h with h1 h2
    · simp only [Option.some.injEq, Prod.mk.injEq] at h
      obtain ⟨hs, _⟩ := h
      rw [← hs]
      exact hok
    · simp only [Option.some.injEq, Prod.mk.injEq] at h
      obtain ⟨hs, _⟩ := h
      rw [← hs]
      exact hok
    · cases hst : generationStep g p f target cancel fuel s pos with
      | none => rw [hst] at h; simp at h
      | some sp =>
        obtain ⟨s1, pos1⟩ := sp
        rw [hst] at h
        simp only [Option.bind_eq_bind, Option.some_bind] at h
        exact ih s1 pos1 s2 pos2
          (generationStep_StateOK g p f target cancel fuel s pos s1 pos1 hb hok hst) h

theorem minElemFold_lt (cost : List RVal) :
    ∀ (ks : List Nat) (b n : Nat), (∀ k ∈ ks, k < n) → b < n →
      minElemFold cost ks b < n := by
  intro ks
  induction ks with
  | nil => exact fun b n _ hb => hb
  | cons k ks ih =>
    intro b n h hb
    exact ih _ n (fun k2 hk2 => h k2 (List.mem_cons_of_mem k hk2))
      (by split_ifs with hc
          · exact h k (List.mem_cons_self k ks)
          · exact hb)

theorem minElementIdx_lt (cost : List RVal) (h : 0 < cost.length) :
    minElementIdx cost < cost.length :=
  minElemFold_lt cost (List.range cost.length) 0 cost.length
    (fun k hk => List.mem_range.mp hk) h

/-- C6: assuming the bounds validate, the oracle initial population honours
the initializer's contract, and any supplied initial guess validates, then
(a) every trial vector produced by one mutation/crossover step from an
in-bounds population is in bounds (every mutant coordinate is clamped, every
inherited coordinate comes from the parent), and (b) whenever the run
returns a candidate, that candidate and the whole final population satisfy
`lower[j] ≤ x[j] ≤ upper[j]` in every dimension. -/
theorem C6_bound_containment (p : DEParams) (f : List ℚ → RVal) (g : RNG)
    (target : RVal) (cancellation : Bool) (initPop : List (List ℚ))
    (cm : Option RVal) (fuel : Nat)
    (hv : validate_differential_evolution_parameters p = Except.ok ())
    (hlen : initPop.length = p.NP)
    (hpop : ∀ x ∈ initPop, inBounds p.lower_bounds p.upper_bounds x) :
    (∀ (pop : List (List ℚ)) (i pos fuel2 : Nat) (row : List ℚ) (pos2 : Nat),
      (∀ x ∈ pop, inBounds p.lower_bounds p.upper_bounds x) → i < pop.length →
      trialRow g p pop i pos fuel2 = some (row, pos2) →
      inBounds p.lower_bounds p.upper_bounds row) ∧
    ∀ (res : List ℚ) (s2 : RunState),
      differential_evolution p f g target cancellation initPop cm fuel =
        Except.ok (some (res, s2)) →
      inBounds p.lower_bounds p.upper_bounds res ∧
        ∀ x ∈ s2.population, inBounds p.lower_bounds p.upper_bounds x := by
  obtain ⟨hbv, hnp, _, _, _, _, hguess, _⟩ := validate_ok_facts p hv
  obtain ⟨_, hb⟩ := validate_bounds_facts _ _ hbv
  constructor
  · intro pop i pos fuel2 row pos2 hpop2 hi htr
    exact trialRow_inBounds g p pop i pos fuel2 row pos2 hb hpop2 hi htr
  · intro res s2 hrun
    unfold differential_evolution at hrun
    rw [hv] at hrun
    dsimp only at hrun
    set s0 : RunState :=
      { population :=
          match p.initial_guess with
          | some guess => initPop.set 0 guess
          | none => initPop
        cost := List.replicate p.NP RVal.nan
        queries := []
        evalCount := 0
        target_attained := false
        current_minimum_cost := cm } with hs0
    have hpop0 : StateOK p s0 := by
      rw [hs0]
      refine ⟨?_, by simp, ?_⟩
      · cases hg : p.initial_guess with
        | none => exact hlen
        | some guess =>
          show (initPop.set 0 guess).length = p.NP
          rw [List.length_set]
          exact hlen
      · cases hg : p.initial_guess with
        | none => exact hpop
        | some guess =>
          intro x hx
          rcases List.mem_or_eq_of_mem_set hx with hx2 | hx2
          · exact hpop x hx2
          · rw [hx2]
            exact validate_initial_guess_facts guess _ _ (hguess guess hg)
    have hok1 : StateOK p (initialPhase f target s0) :=
      initialPhase_StateOK p f target s0 hpop0
    cases hloop : generationLoop g p f target cancellation fuel p.max_generations
        (initialPhase f target s0) 0 with
    | none =>
      rw [hloop] at hrun
      dsimp only at hrun
      simp at hrun
    | some sp =>
      obtain ⟨s2b, pos2b⟩ := sp
      rw [hloop] at hrun
      dsimp only at hrun
      simp only [Except.ok.injEq, Option.some.injEq, Prod.mk.injEq] at hrun
      obtain ⟨hres, hs2⟩ := hrun
      have hok2 : StateOK p s2b :=
        generationLoop_StateOK g p f target cancellation fuel hb p.max_generations
          (initialPhase f target s0) 0 s2b pos2b hok1 hloop
      obtain ⟨hpl, hcl, hmem⟩ := hok2
      have hlt : minElementIdx s2b.cost < s2b.cost.length :=
        minElementIdx_lt s2b.cost (by rw [hcl]; omega)
      have hresmem : s2b.population.getD (minElementIdx s2b.cost) [] ∈ s2b.population := by
        apply getD_mem
        rw [hpl, ← hcl]
        exact hlt
      constructor
      · rw [← hres]
        exact hmem _ hresmem
      · rw [← hs2]
        exact hmem

unseal Rat.add Rat.mul Rat.sub in
theorem C6_bound_containment_witness :
    inBounds pW.lower_bounds pW.upper_bounds [0] :=
  ((C6_bound_containment pW fW gW RVal.nan false popW none 20 (by decide) rfl
    (by decide)).2 [0] sFinalW (by decide)).1

end DE

namespace DE

/-! ### C9: the rejection-sampling index draws -/

theorem drawIndex_some_spec (g : RNG) (NP : Nat) (bad : List Nat) (hNP : 0 < NP) :
    ∀ (fuel pos r pos2 : Nat),
      drawIndex g NP bad pos fuel = some (r, pos2) → r ∉ bad ∧ r < NP := by
  intro fuel
  induction fuel with
  | zero => intro pos r pos2 h; simp [drawIndex] at h
  | succ n ih =>
    intro pos r pos2 h
    simp only [drawIndex] at h
    split_ifs at h with hm
    · exact ih _ _ _ h
    · simp only [Option.some.injEq, Prod.mk.injEq] at h
      obtain ⟨hr, _⟩ := h
      rw [← hr]
      exact ⟨hm, Nat.mod_lt _ hNP⟩

theorem drawIndex_fuel_mono (g : RNG) (NP : Nat) (bad : List Nat) :
    ∀ (fuel fuel2 pos : Nat) (x : Nat × Nat), fuel ≤ fuel2 →
      drawIndex g NP bad pos fuel = some x → drawIndex g NP bad pos fuel2 = some x := by
  intro fuel
  induction fuel with
  | zero => intro fuel2 pos x hle h; simp [drawIndex] at h
  | succ n ih =>
    intro fuel2 pos x hle h
    cases fuel2 with
    | zero => omega
    | succ m =>
      simp only [drawIndex] at h ⊢
      split_ifs at h ⊢ with hm
      · exact ih m _ _ (by omega) h
      · exact h

theorem drawIndex_exists (g : RNG) (NP : Nat) (bad : List Nat) :
    ∀ (d pos : Nat), (g.natS (pos + d) % NP) ∉ bad →
      ∃ fuel r pos2, drawIndex g NP bad pos fuel = some (r, pos2) := by
  intro d
  induction d with
  | zero =>
    intro pos hgood
    refine ⟨1, g.natS pos % NP, pos + 1, ?_⟩
    simp only [drawIndex]
    rw [if_neg (by simpa using hgood)]
  | succ n ih =>
    intro pos hgood
    by_cases hm : (g.natS pos % NP) ∈ bad
    · obtain ⟨fuel, r, pos2, hf⟩ := ih (pos + 1) (by
        have hadd : pos + 1 + n = pos + (n + 1) := by omega
        rw [hadd]
        exact hgood)
      refine ⟨fuel + 1, r, pos2, ?_⟩
      simp only [drawIndex]
      rw [if_pos hm]
      exact hf
    · refine ⟨1, g.natS pos % NP, pos + 1, ?_⟩
      simp only [drawIndex]
      rw [if_neg hm]

theorem exists_fresh (NP a b c : Nat) (h4 : 4 ≤ NP) :
    ∃ v, v < NP ∧ v ≠ a ∧ v ≠ b ∧ v ≠ c := by
  by_contra hcon
  push_neg at hcon
  have h0 := hcon 0 (by omega)
  have h1 := hcon 1 (by omega)
  have h2 := hcon 2 (by omega)
  have h3 := hcon 3 (by omega)
  omega

/-- C9: with NP ≥ 4 and a generator stream that keeps producing every residue
class mod NP (the shallow-embedding rendering of a uniform generator's
almost-sure behaviour), the three rejection-sampling loops for slot i
terminate (some fuel suffices), and whenever they produce indices
r1, r2, r3, those are mutually distinct and distinct from i. -/
theorem C9_rejection_sampling (g : RNG) (NP i pos : Nat) (h4 : 4 ≤ NP)
    (hfair : ∀ start v, v < NP → ∃ k, start ≤ k ∧ g.natS k % NP = v) :
    (∃ fuel out, drawThree g NP i pos fuel = some out) ∧
    ∀ fuel r1 r2 r3 pos3,
      drawThree g NP i pos fuel = some ((r1, r2, r3), pos3) →
      r1 ≠ i ∧ r2 ≠ i ∧ r2 ≠ r1 ∧ r3 ≠ i ∧ r3 ≠ r2 ∧ r3 ≠ r1 := by
  have hNP : 0 < NP := by omega
  have hdraw : ∀ (p0 : Nat) (bad : List Nat) (a b c : Nat),
      (∀ x ∈ bad, x = a ∨ x = b ∨ x = c) →
      ∃ fuel r pos2, drawIndex g NP bad p0 fuel = some (r, pos2) := by
    intro p0 bad a b c hsub
    obtain ⟨v, hvNP, hva, hvb, hvc⟩ := exists_fresh NP a b c h4
    obtain ⟨k, hk, hkv⟩ := hfair p0 v hvNP
    apply drawIndex_exists g NP bad (k - p0) p0
    have hadd : p0 + (k - p0) = k := by omega
    rw [hadd, hkv]
    intro hmem
    rcases hsub v hmem with hx | hx | hx
    · exact hva hx
    · exact hvb hx
    · exact hvc hx
  constructor
  · obtain ⟨f1, r1, p1, h1⟩ := hdraw pos [i] i i i (by intro x hx; simp at hx; tauto)
    obtain ⟨f2, r2, p2, h2⟩ := hdraw p1 [i, r1] i r1 r1 (by intro x hx; simp at hx; tauto)
    obtain ⟨f3, r3, p3, h3⟩ :=
      hdraw p2 [i, r2, r1] i r2 r1 (by intro x hx; simp at hx; tauto)
    set F := max f1 (max f2 f3) with hF
    have h1m := drawIndex_fuel_mono g NP [i] f1 F pos (r1, p1) (by omega) h1
    have h2m := drawIndex_fuel_mono g NP [i, r1] f2 F p1 (r2, p2) (by omega) h2
    have h3m := drawIndex_fuel_mono g NP [i, r2, r1] f3 F p2 (r3, p3) (by omega) h3
    refine ⟨F, ((r1, r2, r3), p3), ?_⟩
    unfold drawThree
    rw [h1m]
    simp only [Option.bind_eq_bind, Option.some_bind]
    rw [h2m]
    simp only [Option.some_bind]
    rw [h3m]
    simp only [Option.some_bind]
  · intro fuel r1 r2 r3 pos3 h
    unfold drawThree at h
    cases hd1 : drawIndex g NP [i] pos fuel with
    | none => rw [hd1] at h; simp at h
    | some x1 =>
      obtain ⟨r1b, p1⟩ := x1
      rw [hd1] at h
      simp only [Option.bind_eq_bind, Option.some_bind] at h
      cases hd2 : drawIndex g NP [i, r1b] p1 fuel with
      | none => rw [hd2] at h; simp at h
      | some x2 =>
        obtain ⟨r2b, p2⟩ := x2
        rw [hd2] at h
        simp only [Option.some_bind] at h
        cases hd3 : drawIndex g NP [i, r2b, r1b] p2 fuel with
        | none => rw [hd3] at h; simp at h
        | some x3 =>
          obtain ⟨r3b, p3b⟩ := x3
          rw [hd3] at h
          simp only [Option.some_bind, Option.some.injEq, Prod.mk.injEq] at h
          obtain ⟨⟨hr1, hr2, hr3⟩, _⟩ := h
          rw [← hr1, ← hr2, ← hr3]
          obtain ⟨hm1, _⟩ := drawIndex_some_spec g NP [i] hNP fuel pos r1b p1 hd1
          obtain ⟨hm2, _⟩ := drawIndex_some_spec g NP [i, r1b] hNP fuel p1 r2b p2 hd2
          obtain ⟨hm3, _⟩ :=
            drawIndex_some_spec g NP [i, r2b, r1b] hNP fuel p2 r3b p3b hd3
          simp only [List.mem_cons, List.mem_singleton, not_or] at hm1 hm2 hm3
          exact ⟨hm1.1, hm2.1, hm2.2.1, hm3.1, hm3.2.1, hm3.2.2.1⟩

theorem C9_rejection_sampling_witness :
    ∃ fuel out, drawThree ⟨fun k => k, fun _ => 0⟩ 4 0 0 fuel = some out :=
  (C9_rejection_sampling ⟨fun k => k, fun _ => 0⟩ 4 0 0 (by decide)
    (fun start v hv => ⟨4 * (start / 4) + 4 + v, by omega,
      by show (4 * (start / 4) + 4 + v) % 4 = v; omega⟩)).1

end DE
